import Mathlib

/-!
Verification of the `bitset` package (32-bit variant, `bitset.go`).

The Go code is embedded shallowly: `uint32` values are `Nat` with wrapping
arithmetic made explicit (`% 2^32`), slices are `List Nat`, and every
operation that indexes a slice returns an `Option` whose `none` value models
a Go runtime panic (index out of range).  Loops that write through a slice
index are modelled by structural recursions (`opWords`, `mapStore`) that
return `none` exactly when the corresponding Go loop would panic.
-/

set_option maxRecDepth 40000

namespace GoBitset

/-- Word size in bits (`lWord` in the source). -/
def lWord : Nat := 32

/-- Base-2 logarithm of the word size (`lLog2Word`). -/
def lLog2Word : Nat := 5

/-- A word with all 32 bits set (`allBits`). -/
def allBits : Nat := 0xffffffff

/-- The modulus of `uint32` arithmetic. -/
def U32 : Nat := 4294967296

/-- The largest `uint32` value (`math.MaxUint32`). -/
def maxUint32 : Nat := 4294967295

/-- Wrapping `uint32` addition. -/
def add32 (a b : Nat) : Nat := (a + b) % U32

/-- Wrapping `uint32` subtraction, for arguments below `U32`. -/
def sub32 (a b : Nat) : Nat := (U32 + a - b) % U32

/-- Go's `x &^ y` on `uint32`: `x AND NOT y`, the complement taken on 32 bits. -/
def andNot (x y : Nat) : Nat := x &&& (allBits ^^^ y)

/-- `wordsNeeded(n)`: number of words allocated for `n` bits.  The additions
are `uint32` additions, so `n + (lWord-1)` wraps for `n` close to
`maxUint32`; the source special-cases only `n == math.MaxUint32`. -/
def wordsNeeded (n : Nat) : Nat :=
  if n = 0 then 1
  else if n = maxUint32 then maxUint32 >>> lLog2Word
  else ((n + (lWord - 1)) % U32) >>> lLog2Word

/-- The `Bitset` struct: `n` is the logical bit length, `b` the word slice. -/
structure Bitset where
  n : Nat
  b : List Nat
deriving DecidableEq

/-- `New(n)`: a bitset of length `n` with `wordsNeeded n` zero words. -/
def New (n : Nat) : Bitset := ⟨n, List.replicate (wordsNeeded n) 0⟩

/-- `Len()`. -/
def Len (b : Bitset) : Nat := b.n

/-- `Test(i)`: `false` when `i >= n`, otherwise reads word `i >> 5`
(a panic when that index is out of range is modelled by `none`). -/
def Test (b : Bitset) (i : Nat) : Option Bool :=
  if b.n ≤ i then some false
  else (b.b[i >>> lLog2Word]?).map fun w =>
    decide (w &&& (1 <<< (i &&& (lWord - 1))) ≠ 0)

/-- `Set(i)`: when `i >= n`, grow to `wordsNeeded (i+1)` words (the index
arithmetic wraps at `U32`) and set `n = i+1`; then OR the bit into word
`i >> 5`, which panics (`none`) when that index is out of range. -/
def Set (b : Bitset) (i : Nat) : Option Bitset :=
  let g : Bitset :=
    if b.n ≤ i then
      let nsize := wordsNeeded (add32 i 1)
      let l := b.b.length
      ⟨add32 i 1, if l < nsize then b.b ++ List.replicate (nsize - l) 0 else b.b⟩
    else b
  (g.b[i >>> lLog2Word]?).map fun w =>
    ⟨g.n, g.b.set (i >>> lLog2Word) (w ||| (1 <<< (i &&& (lWord - 1))))⟩

/-- `Clear(i)`: no-op when `i >= n`, otherwise AND-NOT the bit away. -/
def Clear (b : Bitset) (i : Nat) : Option Bitset :=
  if b.n ≤ i then some b
  else (b.b[i >>> lLog2Word]?).map fun w =>
    ⟨b.n, b.b.set (i >>> lLog2Word) (andNot w (1 <<< (i &&& (lWord - 1))))⟩

/-- `Flip(i)`: when `i >= n` first call `Set i`; then unconditionally XOR
the bit of word `i >> 5`. -/
def Flip (b : Bitset) (i : Nat) : Option Bitset :=
  (if b.n ≤ i then Set b i else some b).bind fun g =>
    (g.b[i >>> lLog2Word]?).map fun w =>
      ⟨g.n, g.b.set (i >>> lLog2Word) (w ^^^ (1 <<< (i &&& (lWord - 1))))⟩

/-- `wordCount()`. -/
def wordCount (b : Bitset) : Nat := wordsNeeded b.n

/-- Go's `copy(dst, src)`: overwrite the first `min |dst| |src|` entries of
`dst` with those of `src`, keeping the rest of `dst`. -/
def goCopy (dst src : List Nat) : List Nat :=
  src.take (min dst.length src.length) ++ dst.drop (min dst.length src.length)

/-- `Clone()`: `New(n)` followed by `copy` of the words. -/
def Clone (b : Bitset) : Bitset := ⟨b.n, goCopy (New b.n).b b.b⟩

/-- Hamming-weight mask `m1 = 0101...`. -/
def m1 : Nat := 0x55555555

/-- Hamming-weight mask `m2 = 00110011...`. -/
def m2 : Nat := 0x33333333

/-- Hamming-weight mask `m4 = 00001111...`. -/
def m4 : Nat := 0x0f0f0f0f

/-- `popCountUint32`, the SWAR population count, with each `uint32`
addition and subtraction wrapping at `U32`. -/
def popCountUint32 (x : Nat) : Nat :=
  let x1 := sub32 x ((x >>> 1) &&& m1)
  let x2 := add32 (x1 &&& m2) ((x1 >>> 2) &&& m2)
  let x3 := add32 x2 (x2 >>> 4) &&& m4
  let x4 := add32 x3 (x3 >>> 8)
  let x5 := add32 x4 (x4 >>> 16)
  x5 &&& 0x7f

/-- `Count()`: wrapping sum of `popCountUint32` over all words. -/
def Count (b : Bitset) : Nat := b.b.foldl (fun s w => add32 s (popCountUint32 w)) 0

/-- The loop of `Equal`: compare the words of the receiver positionally with
the other slice; reading past the end of the second slice is a panic. -/
def eqWords : List Nat → List Nat → Option Bool
  | [], _ => some true
  | _ :: _, [] => none
  | v :: vs, w :: ws => if w ≠ v then some false else eqWords vs ws

/-- `Equal(c)`: sizes must match exactly, then word-wise comparison. -/
def Equal (b c : Bitset) : Option Bool :=
  if b.n ≠ c.n then some false else eqWords b.b c.b

/-- A Go loop `for i := 0; i < cnt; i++ { res[i] = f(as[i], os[i]) }`:
the first `cnt` entries of `res` are replaced by `f as[i] os[i]`, and any
out-of-range index among the three slices is a panic (`none`). -/
def opWords (f : Nat → Nat → Nat) : Nat → List Nat → List Nat → List Nat → Option (List Nat)
  | 0, _, _, res => some res
  | k + 1, a :: as, o :: os, _ :: rs => (opWords f k as os rs).map fun t => f a o :: t
  | _ + 1, _, _, _ => none

/-- `Difference(ob)`: clone the receiver, then `res[i] = b[i] &^ ob[i]` for
`i < min |b.b| (ob.wordCount())`. -/
def Difference (b ob : Bitset) : Option Bitset :=
  (opWords andNot (min b.b.length (wordCount ob)) b.b ob.b (Clone b).b).map fun ws =>
    ⟨b.n, ws⟩

/-- `sortByLength`: order the two operands by logical length. -/
def sortByLength (a b : Bitset) : Bitset × Bitset :=
  if a.n ≤ b.n then (a, b) else (b, a)

/-- `Intersection(ob)`: sort by length, allocate `New` of the shorter
length, then AND over the whole word slice of the shorter operand. -/
def Intersection (b ob : Bitset) : Option Bitset :=
  let p := sortByLength b ob
  (opWords (fun x y => x &&& y) p.1.b.length p.1.b p.2.b (New p.1.n).b).map fun ws =>
    ⟨p.1.n, ws⟩

/-- `Union(ob)`: sort by length, clone the longer operand, then OR for
`i < min |shorter.b| (longer.wordCount())`. -/
def Union (b ob : Bitset) : Option Bitset :=
  let p := sortByLength b ob
  (opWords (fun x y => x ||| y) (min p.1.b.length (wordCount p.2)) p.1.b p.2.b
      (Clone p.2).b).map fun ws => ⟨p.2.n, ws⟩

/-- `SymmetricDifference(ob)`: like `Union` but the loop bound uses the
word count of the shorter operand. -/
def SymmetricDifference (b ob : Bitset) : Option Bitset :=
  let p := sortByLength b ob
  (opWords (fun x y => x ^^^ y) (min p.1.b.length (wordCount p.1)) p.1.b p.2.b
      (Clone p.2).b).map fun ws => ⟨p.2.n, ws⟩

/-- `isEven()`. -/
def isEven (b : Bitset) : Bool := b.n % lWord = 0

/-- `cleanLastWord()`: when the length is not word-aligned, mask the word at
index `wordsNeeded n - 1` (a `uint32` subtraction, so it wraps to
`maxUint32` when `wordsNeeded n = 0`, making the access panic). -/
def cleanLastWord (b : Bitset) : Option Bitset :=
  if isEven b then some b
  else
    (b.b[sub32 (wordsNeeded b.n) 1]?).map fun w =>
      ⟨b.n, b.b.set (sub32 (wordsNeeded b.n) 1)
        (w &&& (allBits >>> (lWord - b.n % lWord)))⟩

/-- A Go loop `for i, w := range ws { res[i] = f w }`: writing past the end
of `res` is a panic. -/
def mapStore (f : Nat → Nat) : List Nat → List Nat → Option (List Nat)
  | [], res => some res
  | w :: ws, _ :: rs => (mapStore f ws rs).map fun t => f w :: t
  | _ :: _, [] => none

/-- `Complement()`: the `b.String()` call at its head reads the words at
indices `int(wordsNeeded n - 1)` (computed with `uint32` wraparound) down
to `0`, so it panics exactly when `wordsNeeded b.n = 0` or
`wordsNeeded b.n > b.b.length`; afterwards each word of `b` is written
complemented into a fresh `New b.n`, and the last word is cleaned. -/
def Complement (b : Bitset) : Option Bitset :=
  if wordsNeeded b.n = 0 ∨ b.b.length < wordsNeeded b.n then none
  else (mapStore (fun w => allBits ^^^ w) b.b (New b.n).b).bind fun ws =>
    cleanLastWord ⟨b.n, ws⟩

/-- Observation helper: bit `j` of a packed word sequence (word `j / 32`,
bit `j % 32`; words past the end read as zero). -/
def wordBit (ws : List Nat) (j : Nat) : Bool := (ws.getD (j / 32) 0).testBit (j % 32)

/-- Representation invariant of every bitset the library builds: the slice
length is exactly `wordsNeeded n`, and words are genuine `uint32` values. -/
def WF (b : Bitset) : Prop :=
  b.n < U32 ∧ b.b.length = wordsNeeded b.n ∧ ∀ w ∈ b.b, w < U32

/-- Largest length below the `uint32` overflow zone of `wordsNeeded`:
`2^32 - 32`.  For `n ≤ safeLen` the expression `n + 31` does not wrap. -/
def safeLen : Nat := 4294967264

/-- Zero-padding invariant: all bits at logical positions `≥ n` inside the
allocated words are zero (stated on the last word). -/
def PadOK (b : Bitset) : Prop :=
  (b.n = 0 → b.b.getD 0 0 = 0) ∧
  (b.n ≠ 0 → b.n % 32 ≠ 0 → b.b.getD (b.b.length - 1) 0 < 2 ^ (b.n % 32))

/-- Number of set bits among the low `w` bits of `v`. -/
def bitCnt (w v : Nat) : Nat :=
  ((List.range w).map (fun j => if v.testBit j then 1 else 0)).sum

/-- First SWAR stage at an arbitrary width: subtract the shifted odd-bit
mask (analysis helper for `popCountUint32`). -/
def swarS1 (q1 v : Nat) : Nat := v - ((v >>> 1) &&& q1)

/-- Second SWAR stage: sum of 2-bit fields into 4-bit fields. -/
def swarS2 (q1 q2 v : Nat) : Nat :=
  (swarS1 q1 v &&& q2) + ((swarS1 q1 v >>> 2) &&& q2)

/-- First three SWAR stages (per-byte population counts), without the
`uint32` wrapping, which is shown separately not to occur. -/
def swar (q1 q2 q4 v : Nat) : Nat :=
  (swarS2 q1 q2 v + (swarS2 q1 q2 v >>> 4)) &&& q4

/-- The final three steps of `popCountUint32`: fold the four byte counts
into the low byte and mask with `0x7f`. -/
def pcTail (x3 : Nat) : Nat :=
  let x4 := add32 x3 (x3 >>> 8)
  let x5 := add32 x4 (x4 >>> 16)
  x5 &&& 0x7f

theorem U32_eq : U32 = 2 ^ 32 := by decide

theorem safeLen_eq : safeLen = 2 ^ 32 - 32 := by decide

/-- Below the overflow zone, `wordsNeeded` is the intended ceiling formula. -/
theorem wordsNeeded_safe (n : Nat) (h : n ≤ safeLen) :
    wordsNeeded n = max 1 ((n + 31) / 32) := by
  have hs : safeLen = 4294967264 := rfl
  unfold wordsNeeded
  rcases Nat.eq_zero_or_pos n with h0 | h0
  · subst h0; decide
  · rw [if_neg (by omega), if_neg (by unfold maxUint32; omega)]
    unfold lWord lLog2Word U32
    rw [Nat.mod_eq_of_lt (by omega), Nat.shiftRight_eq_div_pow]
    have h32 : (2 : Nat) ^ 5 = 32 := by decide
    rw [h32]
    omega

theorem wordsNeeded_mono {a c : Nat} (hac : a ≤ c) (hc : c ≤ safeLen) :
    wordsNeeded a ≤ wordsNeeded c := by
  rw [wordsNeeded_safe a (le_trans hac hc), wordsNeeded_safe c hc]
  have : (a + 31) / 32 ≤ (c + 31) / 32 := Nat.div_le_div_right (by omega)
  omega

theorem wordsNeeded_pos (n : Nat) (h : n ≤ safeLen) : 1 ≤ wordsNeeded n := by
  rw [wordsNeeded_safe n h]; omega

/-- Every word count the code can compute is at most `2^27 - 1`. -/
theorem wordsNeeded_le (n : Nat) : wordsNeeded n ≤ 134217727 := by
  unfold wordsNeeded lWord lLog2Word maxUint32 U32
  split
  · omega
  · split
    · decide
    · rw [Nat.shiftRight_eq_div_pow]
      have h1 : (n + 31) % 4294967296 < 4294967296 := Nat.mod_lt _ (by omega)
      have h2 : (2 : Nat) ^ 5 = 32 := by decide
      rw [h2]
      omega

theorem shiftRight5_eq_div (i : Nat) : i >>> lLog2Word = i / 32 := by
  unfold lLog2Word
  rw [Nat.shiftRight_eq_div_pow]

/-- The word index of a bit below `n` is below `wordsNeeded n`. -/
theorem div32_lt_wordsNeeded {i n : Nat} (hin : i < n) (hn : n ≤ safeLen) :
    i / 32 < wordsNeeded n := by
  rw [wordsNeeded_safe n hn]
  omega

theorem and31_eq_mod (i : Nat) : i &&& (lWord - 1) = i % 32 := by
  have h : lWord - 1 = 2 ^ 5 - 1 := by decide
  rw [h, Nat.and_pow_two_sub_one_eq_mod]

theorem testBit_or_shift_self (w k : Nat) : (w ||| (1 <<< k)).testBit k = true := by
  rw [Nat.testBit_or, Nat.one_shiftLeft, Nat.testBit_two_pow_self, Bool.or_true]

/-- Claim C1: `Flip` past the boundary grows the set to length `i+1`, but the
bit ends up CLEAR, not set: `Set` inside `Flip` sets the bit and the
unconditional XOR that follows toggles it back to zero.  Evaluated at the
empty bitset with `i = 0`. -/
theorem c1_flip_growth_clears_bit :
    Flip (New 0) 0 = some ⟨1, [0]⟩ ∧
    ((Flip (New 0) 0).bind fun g => Test g 0) = some false ∧
    (Flip (New 0) 0).map Len = some 1 := by decide

/-- Claim C9: for every bitset and every `i ≥ len`, `Test` returns `false`
without touching the words, and `Clear` returns the bitset unchanged. -/
theorem c9_out_of_range_defined (b : Bitset) (i : Nat) (h : b.n ≤ i) :
    Test b i = some false ∧ Clear b i = some b := by
  unfold Test Clear
  rw [if_pos h, if_pos h]
  exact ⟨rfl, rfl⟩

/-- Witness for C9 at a concrete bitset and index. -/
theorem c9_out_of_range_defined_witness :
    Test (New 5) 7 = some false ∧ Clear (New 5) 7 = some (New 5) :=
  c9_out_of_range_defined (New 5) 7 (by decide)

/-- Counterexample to claim C2: complementing a length-0 bitset takes the
`n % 32 = 0` branch of `cleanLastWord`, so its single word is left all-ones;
bit 0 sits at logical position `0 ≥ length` and is set. -/
theorem c2_cex_complement_empty :
    Complement (New 0) = some ⟨0, [4294967295]⟩ ∧ wordBit [4294967295] 0 = true := by
  decide

/-- Counterexample to claim C3: `Set` on index `2^32 - 3` wraps the word
count computation (`i+32` overflows `uint32`), allocates nothing, and then
panics indexing word `134217727` of a 1-word slice. -/
theorem c3_cex_set_overflow : Set (New 0) 4294967293 = none := by decide

/-- Counterexample to claim C8: `Set` on index `2^32 - 1` computes
`wordsNeeded 0 = 1`, keeps one word, and panics on the word index. -/
theorem c8_cex_set_max_index : Set (New 0) 4294967295 = none := by decide

/-- Counterexample to claim C4: for `n = 2^32 - 2` the sum `n + 31` wraps,
so `New` allocates `0` words instead of `max 1 (ceil (n/32)) = 2^27`. -/
theorem c4_cex_new_wraps :
    (New 4294967294).b.length = 0 ∧ max 1 ((4294967294 + 31) / 32) = 134217728 := by
  decide

/-- Counterexample to claim C5: with one operand of length `2^32 - 2`
(0 words after the wrap), `Intersection` panics in both argument orders, so
`a.op(b).equal(b.op(a))` does not hold for these constructor-built bitsets. -/
theorem c5_cex_intersection_panics :
    ((Intersection (New 100) (New 4294967294)).bind fun x =>
      (Intersection (New 4294967294) (New 100)).bind fun y => Equal x y) = none := by
  decide

/-- Counterexample to claim C6: `Complement (New 0)` has its padding word
all-ones, and a `Union` spreads it into a length-5 bitset whose padding bits
are dirty; double complement then masks them away, so `equal` fails. -/
theorem c6_cex_double_complement :
    ((Complement (New 0)).bind fun x => (Union x (New 5)).bind fun a =>
      (Complement a).bind fun c1 => (Complement c1).bind fun c2 => Equal c2 a) =
    some false := by decide

/-- Counterexample to claim C7: with one operand of length `2^32 - 2` the
`Intersection` in the stated sum panics, so the identity cannot hold for
all constructor-built bitsets. -/
theorem c7_cex_intersection_panics : Intersection (New 200) (New 4294967294) = none := by
  decide

/-- Counterexample to claim C10: sorting `New 100` against `New (2^32-2)`
makes the length-sorted "shorter" operand own 4 words while the longer one
owns 0, and `SymmetricDifference` then reads out of range. -/
theorem c10_cex_word_count_not_monotone :
    wordCount (sortByLength (New 100) (New 4294967294)).1 = 4 ∧
    wordCount (sortByLength (New 100) (New 4294967294)).2 = 0 ∧
    SymmetricDifference (New 100) (New 4294967294) = none := by decide

theorem add32_small {i : Nat} (h : i + 1 < U32) : add32 i 1 = i + 1 := by
  unfold add32
  exact Nat.mod_eq_of_lt h

theorem or_shift_and_ne (w k : Nat) : (w ||| (1 <<< k)) &&& (1 <<< k) ≠ 0 := by
  intro h0
  have htb : ((w ||| (1 <<< k)) &&& (1 <<< k)).testBit k = true := by
    rw [Nat.testBit_and, Nat.one_shiftLeft, Nat.testBit_or, Nat.testBit_two_pow_self]
    simp
  rw [h0] at htb
  simp [Nat.zero_testBit] at htb

theorem Test_some_true {c : Bitset} {i : Nat} (hni : i < c.n)
    (hlt : i >>> lLog2Word < c.b.length)
    (hbit : (c.b[i >>> lLog2Word]) &&& (1 <<< (i &&& (lWord - 1))) ≠ 0) :
    Test c i = some true := by
  unfold Test
  rw [if_neg (by omega), List.getElem?_eq_getElem hlt]
  simp [hbit]

theorem set_master (b : Bitset) (i : Nat) (hwf : WF b) (hn : b.n ≤ safeLen)
    (hi : i < safeLen) :
    ∃ b', Set b i = some b' ∧
      b'.n = max b.n (i + 1) ∧
      b'.b.length = wordsNeeded b'.n ∧
      i >>> lLog2Word < b'.b.length ∧
      wordBit b'.b i = true ∧
      Test b' i = some true ∧
      (b.n ≤ i → ∀ j, b.b.length ≤ j → j ≠ i >>> lLog2Word → b'.b.getD j 0 = 0) := by
  obtain ⟨hnU, hlen, hwords⟩ := hwf
  have hsl : safeLen = 4294967264 := rfl
  have hUe : U32 = 4294967296 := rfl
  by_cases hgi : b.n ≤ i
  · -- growth path
    have hadd : add32 i 1 = i + 1 := add32_small (by omega)
    have hm : wordsNeeded b.n ≤ wordsNeeded (i + 1) :=
      wordsNeeded_mono (by omega) (by omega)
    set ws := if b.b.length < wordsNeeded (i + 1) then
        b.b ++ List.replicate (wordsNeeded (i + 1) - b.b.length) 0 else b.b with hws
    have hlen2 : ws.length = wordsNeeded (i + 1) := by
      rw [hws]
      split
      · simp only [List.length_append, List.length_replicate]
        omega
      · omega
    have hidx : i >>> lLog2Word < ws.length := by
      rw [hlen2, shiftRight5_eq_div]
      exact div32_lt_wordsNeeded (by omega) (by omega)
    have hget : ws[i >>> lLog2Word]? = some (ws[i >>> lLog2Word]) :=
      List.getElem?_eq_getElem hidx
    refine ⟨⟨i + 1, ws.set (i >>> lLog2Word)
        ((ws[i >>> lLog2Word]) ||| (1 <<< (i &&& (lWord - 1))))⟩, ?_, ?_, ?_, ?_, ?_, ?_, ?_⟩
    · simp only [Set, hadd]
      rw [if_pos hgi, ← hws, hget]
      rfl
    · simp only
      omega
    · simp only [List.length_set]
      rw [hlen2]
    · simp only [List.length_set]
      exact hidx
    · unfold wordBit
      rw [← shiftRight5_eq_div]
      have hlt : i >>> lLog2Word <
          (ws.set (i >>> lLog2Word)
            ((ws[i >>> lLog2Word]) ||| (1 <<< (i &&& (lWord - 1))))).length := by
        simpa using hidx
      rw [List.getD_eq_getElem?_getD, List.getElem?_eq_getElem hlt, List.getElem_set_self]
      simp only [Option.getD_some]
      rw [← and31_eq_mod]
      exact testBit_or_shift_self _ _
    · refine Test_some_true (by simp only; omega) (by simpa using hidx) ?_
      rw [List.getElem_set_self]
      exact or_shift_and_ne _ _
    · intro _ j hj hjne
      rw [List.getD_eq_getElem?_getD, List.getElem?_set_ne (Ne.symm hjne), hws]
      split
      · next hc =>
        by_cases hjr : j < b.b.length + (wordsNeeded (i + 1) - b.b.length)
        · rw [List.getElem?_append_right (by omega)]
          simp only [List.getElem?_replicate]
          rw [if_pos (by omega)]
          rfl
        · rw [List.getElem?_eq_none (by simp only [List.length_append, List.length_replicate]; omega)]
          rfl
      · next hc =>
        rw [List.getElem?_eq_none (by omega)]
        rfl
  · -- no-growth path
    have hgi' : ¬ b.n ≤ i := hgi
    push_neg at hgi
    have hidx : i >>> lLog2Word < b.b.length := by
      rw [hlen, shiftRight5_eq_div]
      exact div32_lt_wordsNeeded hgi hn
    have hget : b.b[i >>> lLog2Word]? = some (b.b[i >>> lLog2Word]) :=
      List.getElem?_eq_getElem hidx
    refine ⟨⟨b.n, b.b.set (i >>> lLog2Word)
        ((b.b[i >>> lLog2Word]) ||| (1 <<< (i &&& (lWord - 1))))⟩, ?_, ?_, ?_, ?_, ?_, ?_, ?_⟩
    · simp only [Set]
      rw [if_neg hgi', hget]
      rfl
    · simp only
      omega
    · simp only [List.length_set]
      exact hlen
    · simp only [List.length_set]
      exact hidx
    · unfold wordBit
      rw [← shiftRight5_eq_div]
      have hlt : i >>> lLog2Word <
          (b.b.set (i >>> lLog2Word)
            ((b.b[i >>> lLog2Word]) ||| (1 <<< (i &&& (lWord - 1))))).length := by
        simpa using hidx
      rw [List.getD_eq_getElem?_getD, List.getElem?_eq_getElem hlt, List.getElem_set_self]
      simp only [Option.getD_some]
      rw [← and31_eq_mod]
      exact testBit_or_shift_self _ _
    · refine Test_some_true (by simp only; omega) (by simpa using hidx) ?_
      rw [List.getElem_set_self]
      exact or_shift_and_ne _ _
    · intro hc
      omega



/-- Claim C3 (amended): for every invariant-satisfying bitset of length at
most `2^32 - 32` and every index `i ≤ 2^32 - 33`, `Set` succeeds, the word
holding bit `i` exists, and that word has the bit set. -/
theorem c3_set_inbounds_amended (b : Bitset) (i : Nat) (hwf : WF b)
    (hn : b.n ≤ safeLen) (hi : i < safeLen) :
    ∃ b', Set b i = some b' ∧ i >>> lLog2Word < b'.b.length ∧ wordBit b'.b i = true := by
  obtain ⟨b', h1, _, _, h4, h5, _, _⟩ := set_master b i hwf hn hi
  exact ⟨b', h1, h4, h5⟩

/-- Witness for the amended C3 at a concrete bitset and index. -/
theorem c3_set_inbounds_amended_witness :
    ∃ b', Set (New 0) 40 = some b' ∧ 40 >>> lLog2Word < b'.b.length ∧
      wordBit b'.b 40 = true :=
  c3_set_inbounds_amended (New 0) 40 (by unfold WF; decide) (by decide) (by decide)

/-- Claim C8 (amended): below the overflow zone, after `Set i` the bit tests
true and the length is at least `i+1`; on the growth path the length becomes
exactly `i+1`, the slice grows to exactly `wordsNeeded (i+1)` words, and
every appended word other than the one holding bit `i` is zero. -/
theorem c8_set_post_amended (b : Bitset) (i : Nat) (hwf : WF b)
    (hn : b.n ≤ safeLen) (hi : i < safeLen) :
    ∃ b', Set b i = some b' ∧ Test b' i = some true ∧ i + 1 ≤ Len b' ∧
      (b.n ≤ i → b'.n = i + 1 ∧ b'.b.length = wordsNeeded (i + 1) ∧
        ∀ j, b.b.length ≤ j → j ≠ i >>> lLog2Word → b'.b.getD j 0 = 0) := by
  obtain ⟨b', h1, h2, h3, _, _, h6, h7⟩ := set_master b i hwf hn hi
  refine ⟨b', h1, h6, ?_, fun hgi => ⟨?_, ?_, h7 hgi⟩⟩
  · unfold Len
    omega
  · omega
  · have hb : b'.n = i + 1 := by omega
    rw [h3, hb]

/-- Witness for the amended C8 at a concrete bitset and index. -/
theorem c8_set_post_amended_witness :
    ∃ b', Set (New 0) 40 = some b' ∧ Test b' 40 = some true ∧ 41 ≤ Len b' ∧
      ((New 0).n ≤ 40 → b'.n = 41 ∧ b'.b.length = wordsNeeded 41 ∧
        ∀ j, (New 0).b.length ≤ j → j ≠ 40 >>> lLog2Word → b'.b.getD j 0 = 0) :=
  c8_set_post_amended (New 0) 40 (by unfold WF; decide) (by decide) (by decide)

/-- Claim C4 (amended): for `n ≤ 2^32 - 32`, `New n` has length `n` and
exactly `max 1 (ceil (n / 32))` words, all zero; for larger `n` the word
count computation wraps (see the counterexample). -/
theorem c4_new_amended (n : Nat) (h : n ≤ safeLen) :
    (New n).n = n ∧ (New n).b.length = max 1 ((n + 31) / 32) ∧
      ∀ w ∈ (New n).b, w = 0 := by
  refine ⟨rfl, ?_, ?_⟩
  · show (List.replicate (wordsNeeded n) 0).length = _
    rw [List.length_replicate, wordsNeeded_safe n h]
  · intro w hw
    exact List.eq_of_mem_replicate hw

/-- Witness for the amended C4 at `n = 33`. -/
theorem c4_new_amended_witness :
    (New 33).n = 33 ∧ (New 33).b.length = max 1 ((33 + 31) / 32) ∧
      ∀ w ∈ (New 33).b, w = 0 :=
  c4_new_amended 33 (by decide)

theorem mapStore_eval (f : Nat → Nat) :
    ∀ (ws res : List Nat), ws.length ≤ res.length →
      mapStore f ws res = some (ws.map f ++ res.drop ws.length)
  | [], res, _ => by simp [mapStore]
  | w :: ws, r :: rs, h => by
    unfold mapStore
    rw [mapStore_eval f ws rs (by simpa using h)]
    simp

theorem allBits_shift (k : Nat) (h : k ≤ 32) : allBits >>> k = 2 ^ (32 - k) - 1 := by
  have hA : allBits = 2 ^ 32 - 1 := by decide
  rw [hA]
  apply Nat.eq_of_testBit_eq
  intro j
  rw [Nat.testBit_shiftRight, Nat.testBit_two_pow_sub_one, Nat.testBit_two_pow_sub_one,
    decide_eq_decide]
  omega

theorem wordsNeeded_even {n : Nat} (hpos : 0 < n) (hn : n ≤ safeLen) (he : n % 32 = 0) :
    wordsNeeded n = n / 32 := by
  rw [wordsNeeded_safe n hn]
  omega

theorem wordsNeeded_odd {n : Nat} (hn : n ≤ safeLen) (ho : n % 32 ≠ 0) :
    wordsNeeded n = n / 32 + 1 := by
  rw [wordsNeeded_safe n hn]
  omega

theorem complement_eval (b : Bitset) (hwf : WF b) (hn : b.n ≤ safeLen) :
    Complement b = cleanLastWord ⟨b.n, b.b.map (fun w => allBits ^^^ w)⟩ := by
  obtain ⟨hnU, hlen, hwords⟩ := hwf
  have h1 : 1 ≤ wordsNeeded b.n := wordsNeeded_pos _ hn
  unfold Complement
  rw [if_neg (by push_neg; exact ⟨by omega, by omega⟩)]
  rw [mapStore_eval _ _ _ (by simp [New]; omega)]
  have hdrop : (New b.n).b.drop b.b.length = [] := by
    apply List.drop_eq_nil_of_le
    simp [New]
    omega
  rw [hdrop, List.append_nil]
  rfl

theorem cleanLastWord_even {c : Bitset} (h : c.n % 32 = 0) : cleanLastWord c = some c := by
  unfold cleanLastWord
  rw [if_pos (by simp [isEven, lWord, h])]

theorem cleanLastWord_odd {c : Bitset} (hlen : c.b.length = wordsNeeded c.n)
    (hn : c.n ≤ safeLen) (h : c.n % 32 ≠ 0) :
    cleanLastWord c = some ⟨c.n, c.b.set (wordsNeeded c.n - 1)
      ((c.b.getD (wordsNeeded c.n - 1) 0) &&& (allBits >>> (lWord - c.n % lWord)))⟩ := by
  have h1 : 1 ≤ wordsNeeded c.n := wordsNeeded_pos _ hn
  have hW : wordsNeeded c.n ≤ 134217727 := wordsNeeded_le _
  have hsub : sub32 (wordsNeeded c.n) 1 = wordsNeeded c.n - 1 := by
    unfold sub32 U32
    omega
  have hidx : wordsNeeded c.n - 1 < c.b.length := by omega
  unfold cleanLastWord
  rw [if_neg (by simp [isEven, lWord, h]), hsub, List.getElem?_eq_getElem hidx,
    List.getD_eq_getElem c.b 0 hidx]
  rfl

theorem eqWords_refl : ∀ ws : List Nat, eqWords ws ws = some true
  | [] => rfl
  | w :: ws => by
    unfold eqWords
    rw [if_neg (by simp)]
    exact eqWords_refl ws

theorem equal_self (c : Bitset) : Equal c c = some true := by
  unfold Equal
  rw [if_neg (by simp)]
  exact eqWords_refl c.b

theorem xor_xor_cancel (w : Nat) : allBits ^^^ (allBits ^^^ w) = w := by
  rw [← Nat.xor_assoc, Nat.xor_self, Nat.zero_xor]

theorem maskRoundTrip (k w : Nat) :
    (allBits ^^^ ((allBits ^^^ w) &&& k)) &&& k = w &&& k := by
  apply Nat.eq_of_testBit_eq
  intro j
  simp only [Nat.testBit_and, Nat.testBit_xor]
  cases allBits.testBit j <;> cases w.testBit j <;> cases k.testBit j <;> rfl



/-- Claim C2 (amended): for every invariant-satisfying bitset with
`0 < length ≤ 2^32 - 32`, the complement has the same length, the same word
count, and every bit at a logical position `≥ length` within its words is
zero.  (At `length = 0` the single word of the complement is all-ones, and
in the overflow zone `Complement` panics.) -/
theorem c2_complement_padding_amended (b : Bitset) (hwf : WF b) (hpos : 0 < b.n)
    (hn : b.n ≤ safeLen) :
    ∃ r, Complement b = some r ∧ r.n = b.n ∧ r.b.length = b.b.length ∧
      ∀ j, b.n ≤ j → wordBit r.b j = false := by
  obtain ⟨hnU, hlen, hwords⟩ := hwf
  have hce := complement_eval b ⟨hnU, hlen, hwords⟩ hn
  by_cases he : b.n % 32 = 0
  · rw [hce, cleanLastWord_even (c := ⟨b.n, b.b.map (fun w => allBits ^^^ w)⟩) he]
    refine ⟨_, rfl, rfl, by simp, ?_⟩
    intro j hj
    unfold wordBit
    have hwne : wordsNeeded b.n = b.n / 32 := wordsNeeded_even hpos hn he
    rw [List.getD_eq_default _ _ (by simp only [List.length_map]; omega)]
    exact Nat.zero_testBit _
  · have hco := cleanLastWord_odd (c := ⟨b.n, b.b.map (fun w => allBits ^^^ w)⟩)
      (by simpa using hlen) hn he
    rw [hce, hco]
    refine ⟨_, rfl, rfl, by simp, ?_⟩
    intro j hj
    unfold wordBit
    have hwno : wordsNeeded b.n = b.n / 32 + 1 := wordsNeeded_odd hn he
    have hlen1 : (b.b.map (fun w => allBits ^^^ w)).length = b.n / 32 + 1 := by
      simp only [List.length_map]
      omega
    by_cases hjr : j / 32 < b.n / 32 + 1
    · have hjidx : j / 32 = wordsNeeded b.n - 1 := by omega
      have hidx : wordsNeeded b.n - 1 <
          ((b.b.map (fun w => allBits ^^^ w)).set (wordsNeeded b.n - 1)
            (((b.b.map (fun w => allBits ^^^ w)).getD (wordsNeeded b.n - 1) 0) &&&
              (allBits >>> (lWord - b.n % lWord)))).length := by
        simp only [List.length_set]
        omega
      rw [hjidx, List.getD_eq_getElem _ 0 hidx, List.getElem_set_self, Nat.testBit_and]
      have hmask : allBits >>> (lWord - b.n % lWord) = 2 ^ (b.n % 32) - 1 := by
        unfold lWord
        rw [allBits_shift (32 - b.n % 32) (by omega)]
        have h32 : 32 - (32 - b.n % 32) = b.n % 32 := by omega
        rw [h32]
      rw [hmask, Nat.testBit_two_pow_sub_one]
      have hge : ¬ (j % 32 < b.n % 32) := by omega
      simp [hge]
    · rw [List.getD_eq_default _ _ (by simp only [List.length_set, List.length_map]; omega)]
      exact Nat.zero_testBit _

/-- Witness for the amended C2 at a concrete bitset. -/
theorem c2_complement_padding_amended_witness :
    ∃ r, Complement (New 5) = some r ∧ r.n = (New 5).n ∧
      r.b.length = (New 5).b.length ∧ ∀ j, (New 5).n ≤ j → wordBit r.b j = false :=
  c2_complement_padding_amended (New 5) (by unfold WF; decide) (by decide) (by decide)



theorem notWord_lt {w : Nat} (h : w < U32) : allBits ^^^ w < U32 := by
  rw [U32_eq] at *
  exact Nat.xor_lt_two_pow (by decide) h

theorem getD_set_self (l : List Nat) (i v : Nat) (h : i < l.length) :
    (l.set i v).getD i 0 = v := by
  rw [List.getD_eq_getElem _ 0 (by simpa using h), List.getElem_set_self]

theorem getD_set_ne (l : List Nat) {i j : Nat} (v : Nat) (h : i ≠ j) :
    (l.set i v).getD j 0 = l.getD j 0 := by
  rw [List.getD_eq_getElem?_getD, List.getD_eq_getElem?_getD, List.getElem?_set_ne h]

theorem getD_map (f : Nat → Nat) (l : List Nat) {j : Nat} (h : j < l.length) :
    (l.map f).getD j 0 = f (l.getD j 0) := by
  rw [List.getD_eq_getElem _ 0 (by simpa using h), List.getD_eq_getElem _ 0 h,
    List.getElem_map]

theorem list_ext_getD (xs ys : List Nat) (hl : xs.length = ys.length)
    (h : ∀ j, j < xs.length → xs.getD j 0 = ys.getD j 0) : xs = ys := by
  apply List.ext_getElem hl
  intro j h1 h2
  have hj := h j h1
  rwa [List.getD_eq_getElem _ 0 h1, List.getD_eq_getElem _ 0 h2] at hj

theorem getD_lt_of_forall {l : List Nat} {c : Nat} (h : ∀ w ∈ l, w < c) (hc : 0 < c)
    {j : Nat} : l.getD j 0 < c := by
  by_cases hj : j < l.length
  · rw [List.getD_eq_getElem _ 0 hj]
    exact h _ (List.getElem_mem _)
  · rw [List.getD_eq_default _ 0 (by omega)]
    exact hc

/-- Claim C6 (amended): double complement is the identity on every
invariant-satisfying bitset whose padding bits are zero and whose length is
at most `2^32 - 32`. -/
theorem c6_double_complement_amended (b : Bitset) (hwf : WF b) (hn : b.n ≤ safeLen)
    (hpad : PadOK b) :
    ((Complement b).bind fun c1 => (Complement c1).bind fun c2 => Equal c2 b) =
      some true := by
  obtain ⟨n, bb⟩ := b
  obtain ⟨hnU, hlen, hwords⟩ := hwf
  obtain ⟨hpad0, hpadr⟩ := hpad
  simp only at hnU hlen hwords hpad0 hpadr hn ⊢
  by_cases h0 : n = 0
  · subst h0
    have hl1 : bb.length = 1 := hlen
    obtain ⟨w, rfl⟩ := List.length_eq_one.mp hl1
    have hw0 : w = 0 := by simpa using hpad0 rfl
    subst hw0
    decide
  · have hwf0 : WF ⟨n, bb⟩ := ⟨hnU, hlen, hwords⟩
    by_cases he : n % 32 = 0
    · rw [complement_eval ⟨n, bb⟩ hwf0 hn,
        cleanLastWord_even (c := ⟨n, bb.map (fun w => allBits ^^^ w)⟩) he]
      simp only [Option.some_bind]
      have hwf1 : WF ⟨n, bb.map (fun w => allBits ^^^ w)⟩ := by
        refine ⟨hnU, by simpa using hlen, ?_⟩
        intro w hw
        simp only [List.mem_map] at hw
        obtain ⟨v, hv, rfl⟩ := hw
        exact notWord_lt (hwords v hv)
      rw [complement_eval _ hwf1 hn,
        cleanLastWord_even
          (c := ⟨n, (bb.map (fun w => allBits ^^^ w)).map (fun w => allBits ^^^ w)⟩) he]
      simp only [Option.some_bind]
      have hmm : (bb.map (fun w => allBits ^^^ w)).map (fun w => allBits ^^^ w) = bb := by
        rw [List.map_map]
        calc bb.map ((fun w => allBits ^^^ w) ∘ (fun w => allBits ^^^ w))
            = bb.map id := List.map_congr_left (fun a _ => xor_xor_cancel a)
          _ = bb := List.map_id bb
      rw [hmm]
      exact equal_self ⟨n, bb⟩
    · rw [complement_eval ⟨n, bb⟩ hwf0 hn,
        cleanLastWord_odd (c := ⟨n, bb.map (fun w => allBits ^^^ w)⟩) (by simpa using hlen)
          hn he]
      simp only [Option.some_bind]
      have hidxlt : wordsNeeded n - 1 < bb.length := by
        have := wordsNeeded_pos n hn
        omega
      set msk := allBits >>> (lWord - n % lWord) with hmsk
      set ws1 := (bb.map (fun w => allBits ^^^ w)).set (wordsNeeded n - 1)
        (((bb.map (fun w => allBits ^^^ w)).getD (wordsNeeded n - 1) 0) &&& msk) with hws1
      have hlen1 : ws1.length = bb.length := by
        rw [hws1]
        simp
      have hwbound : ∀ w ∈ ws1, w < U32 := by
        intro w hw
        rw [hws1] at hw
        rcases List.mem_or_eq_of_mem_set hw with hmem | rfl
        · simp only [List.mem_map] at hmem
          obtain ⟨v, hv, rfl⟩ := hmem
          exact notWord_lt (hwords v hv)
        · exact lt_of_le_of_lt Nat.and_le_left
            (getD_lt_of_forall (fun w hw => by
                simp only [List.mem_map] at hw
                obtain ⟨v, hv, rfl⟩ := hw
                exact notWord_lt (hwords v hv))
              (by unfold U32; omega))
      have hwf1 : WF ⟨n, ws1⟩ := ⟨hnU, by rw [hlen1]; exact hlen, hwbound⟩
      rw [complement_eval ⟨n, ws1⟩ hwf1 hn,
        cleanLastWord_odd (c := ⟨n, ws1.map (fun w => allBits ^^^ w)⟩)
          (by simp only [List.length_map]; rw [hlen1]; exact hlen) hn he]
      simp only [Option.some_bind]
      have hfinal : (ws1.map (fun w => allBits ^^^ w)).set (wordsNeeded n - 1)
          (((ws1.map (fun w => allBits ^^^ w)).getD (wordsNeeded n - 1) 0) &&& msk) = bb := by
        apply list_ext_getD
        · simp only [List.length_set, List.length_map]
          rw [hlen1]
        · intro j hj
          have hjb : j < bb.length := by
            simp only [List.length_set, List.length_map] at hj
            omega
          have hjw : j < ws1.length := by rw [hlen1]; exact hjb
          by_cases hji : j = wordsNeeded n - 1
          · subst hji
            rw [getD_set_self _ _ _ (by simpa using hjw),
              getD_map _ _ hjw, hws1,
              getD_set_self _ _ _ (by simpa using hidxlt),
              getD_map _ _ hidxlt]
            rw [maskRoundTrip]
            have hmv : msk = 2 ^ (n % 32) - 1 := by
              rw [hmsk]
              unfold lWord
              rw [allBits_shift (32 - n % 32) (by omega)]
              have h32 : 32 - (32 - n % 32) = n % 32 := by omega
              rw [h32]
            have hidxe : bb.length - 1 = wordsNeeded n - 1 := by omega
            have hpadv : bb.getD (wordsNeeded n - 1) 0 < 2 ^ (n % 32) := by
              have hp := hpadr h0 he
              rwa [hidxe] at hp
            rw [hmv, Nat.and_pow_two_sub_one_eq_mod]
            exact Nat.mod_eq_of_lt hpadv
          · rw [getD_set_ne _ _ (fun hh => hji hh.symm),
              getD_map _ _ hjw, hws1,
              getD_set_ne _ _ (fun hh => hji hh.symm),
              getD_map _ _ hjb]
            exact xor_xor_cancel _
      rw [hfinal]
      exact equal_self ⟨n, bb⟩

/-- Witness for the amended C6 at a concrete bitset with a set bit. -/
theorem c6_double_complement_amended_witness :
    ((Complement ⟨5, [4]⟩).bind fun c1 =>
      (Complement c1).bind fun c2 => Equal c2 ⟨5, [4]⟩) = some true :=
  c6_double_complement_amended ⟨5, [4]⟩ (by unfold WF; decide) (by decide)
    (by unfold PadOK; decide)

theorem opWords_eval (f : Nat → Nat → Nat) :
    ∀ (k : Nat) (as os res : List Nat), k ≤ as.length → k ≤ os.length → k ≤ res.length →
      opWords f k as os res = some (List.zipWith f (as.take k) (os.take k) ++ res.drop k)
  | 0, as, os, res, _, _, _ => by simp [opWords]
  | k + 1, a :: as, o :: os, r :: rs, h1, h2, h3 => by
    unfold opWords
    rw [opWords_eval f k as os rs (by simpa using h1) (by simpa using h2)
      (by simpa using h3)]
    simp [List.zipWith]
  | k + 1, [], os, res, h1, _, _ => by simp at h1
  | k + 1, _ :: _, [], res, _, h2, _ => by simp at h2
  | k + 1, _ :: _, _ :: _, [], _, _, h3 => by simp at h3

theorem clone_eq (b : Bitset) (hlen : b.b.length = wordsNeeded b.n) : Clone b = b := by
  have hN : (New b.n).b.length = b.b.length := by
    simp only [New, List.length_replicate]
    omega
  unfold Clone goCopy
  rw [hN, Nat.min_self, List.take_length, List.drop_eq_nil_of_le (by omega),
    List.append_nil]

theorem sortByLength_le {a c : Bitset} (h : a.n ≤ c.n) : sortByLength a c = (a, c) :=
  if_pos h

theorem sortByLength_gt {a c : Bitset} (h : c.n < a.n) : sortByLength a c = (c, a) :=
  if_neg (by omega)

theorem inter_core (s l : Bitset) (hlenS : s.b.length = wordsNeeded s.n)
    (hlenL : l.b.length = wordsNeeded l.n) (hsl : s.n ≤ l.n) (hl : l.n ≤ safeLen) :
    (opWords (fun x y => x &&& y) s.b.length s.b l.b (New s.n).b).map
        (fun ws => (⟨s.n, ws⟩ : Bitset)) =
      some ⟨s.n, List.zipWith (fun x y => x &&& y) s.b (l.b.take s.b.length)⟩ := by
  rw [opWords_eval _ _ _ _ _ le_rfl
    (by rw [hlenS, hlenL]; exact wordsNeeded_mono hsl hl)
    (by simp only [New, List.length_replicate]; omega)]
  rw [List.take_length,
    List.drop_eq_nil_of_le (by simp only [New, List.length_replicate]; omega),
    List.append_nil]
  rfl

theorem inter_eval (s l : Bitset) (hlenS : s.b.length = wordsNeeded s.n)
    (hlenL : l.b.length = wordsNeeded l.n) (hsl : s.n ≤ l.n) (hl : l.n ≤ safeLen) :
    Intersection s l =
      some ⟨s.n, List.zipWith (fun x y => x &&& y) s.b (l.b.take s.b.length)⟩ := by
  unfold Intersection
  rw [sortByLength_le hsl]
  exact inter_core s l hlenS hlenL hsl hl

theorem inter_eval_rev (l s : Bitset) (hlenS : s.b.length = wordsNeeded s.n)
    (hlenL : l.b.length = wordsNeeded l.n) (hsl : s.n < l.n) (hl : l.n ≤ safeLen) :
    Intersection l s =
      some ⟨s.n, List.zipWith (fun x y => x &&& y) s.b (l.b.take s.b.length)⟩ := by
  unfold Intersection
  rw [sortByLength_gt hsl]
  exact inter_core s l hlenS hlenL (le_of_lt hsl) hl

theorem union_core (s l : Bitset) (hlenS : s.b.length = wordsNeeded s.n)
    (hlenL : l.b.length = wordsNeeded l.n) (hsl : s.n ≤ l.n) (hl : l.n ≤ safeLen) :
    (opWords (fun x y => x ||| y) (min s.b.length (wordCount l)) s.b l.b (Clone l).b).map
        (fun ws => (⟨l.n, ws⟩ : Bitset)) =
      some ⟨l.n, List.zipWith (fun x y => x ||| y) s.b (l.b.take s.b.length) ++
        l.b.drop s.b.length⟩ := by
  have hmin : min s.b.length (wordCount l) = s.b.length := by
    unfold wordCount
    rw [hlenS]
    exact Nat.min_eq_left (wordsNeeded_mono hsl hl)
  rw [clone_eq l hlenL, hmin,
    opWords_eval _ _ _ _ _ le_rfl
      (by rw [hlenS, hlenL]; exact wordsNeeded_mono hsl hl)
      (by rw [hlenS, hlenL]; exact wordsNeeded_mono hsl hl),
    List.take_length]
  rfl

theorem union_eval (s l : Bitset) (hlenS : s.b.length = wordsNeeded s.n)
    (hlenL : l.b.length = wordsNeeded l.n) (hsl : s.n ≤ l.n) (hl : l.n ≤ safeLen) :
    Union s l = some ⟨l.n, List.zipWith (fun x y => x ||| y) s.b (l.b.take s.b.length) ++
      l.b.drop s.b.length⟩ := by
  unfold Union
  rw [sortByLength_le hsl]
  exact union_core s l hlenS hlenL hsl hl

theorem union_eval_rev (l s : Bitset) (hlenS : s.b.length = wordsNeeded s.n)
    (hlenL : l.b.length = wordsNeeded l.n) (hsl : s.n < l.n) (hl : l.n ≤ safeLen) :
    Union l s = some ⟨l.n, List.zipWith (fun x y => x ||| y) s.b (l.b.take s.b.length) ++
      l.b.drop s.b.length⟩ := by
  unfold Union
  rw [sortByLength_gt hsl]
  exact union_core s l hlenS hlenL (le_of_lt hsl) hl

theorem symd_core (s l : Bitset) (hlenS : s.b.length = wordsNeeded s.n)
    (hlenL : l.b.length = wordsNeeded l.n) (hsl : s.n ≤ l.n) (hl : l.n ≤ safeLen) :
    (opWords (fun x y => x ^^^ y) (min s.b.length (wordCount s)) s.b l.b (Clone l).b).map
        (fun ws => (⟨l.n, ws⟩ : Bitset)) =
      some ⟨l.n, List.zipWith (fun x y => x ^^^ y) s.b (l.b.take s.b.length) ++
        l.b.drop s.b.length⟩ := by
  have hmin : min s.b.length (wordCount s) = s.b.length := by
    unfold wordCount
    rw [hlenS, Nat.min_self]
  rw [clone_eq l hlenL, hmin,
    opWords_eval _ _ _ _ _ le_rfl
      (by rw [hlenS, hlenL]; exact wordsNeeded_mono hsl hl)
      (by rw [hlenS, hlenL]; exact wordsNeeded_mono hsl hl),
    List.take_length]
  rfl

theorem symd_eval (s l : Bitset) (hlenS : s.b.length = wordsNeeded s.n)
    (hlenL : l.b.length = wordsNeeded l.n) (hsl : s.n ≤ l.n) (hl : l.n ≤ safeLen) :
    SymmetricDifference s l =
      some ⟨l.n, List.zipWith (fun x y => x ^^^ y) s.b (l.b.take s.b.length) ++
        l.b.drop s.b.length⟩ := by
  unfold SymmetricDifference
  rw [sortByLength_le hsl]
  exact symd_core s l hlenS hlenL hsl hl

theorem symd_eval_rev (l s : Bitset) (hlenS : s.b.length = wordsNeeded s.n)
    (hlenL : l.b.length = wordsNeeded l.n) (hsl : s.n < l.n) (hl : l.n ≤ safeLen) :
    SymmetricDifference l s =
      some ⟨l.n, List.zipWith (fun x y => x ^^^ y) s.b (l.b.take s.b.length) ++
        l.b.drop s.b.length⟩ := by
  unfold SymmetricDifference
  rw [sortByLength_gt hsl]
  exact symd_core s l hlenS hlenL (le_of_lt hsl) hl

theorem bind_equal_self {o1 o2 : Option Bitset} (r : Bitset) (h12 : o1 = o2)
    (hr : o1 = some r) :
    (o1.bind fun x => o2.bind fun y => Equal x y) = some true := by
  rw [← h12, hr]
  simp only [Option.some_bind]
  exact equal_self r



/-- Claim C5 (amended): `Intersection`, `Union` and `SymmetricDifference`
are commutative up to `Equal` for all invariant-satisfying bitsets with
lengths at most `2^32 - 32` (in the overflow zone the operations panic, see
the counterexample). -/
theorem c5_commutative_amended (a c : Bitset) (hwa : WF a) (hwc : WF c)
    (ha : a.n ≤ safeLen) (hc : c.n ≤ safeLen) :
    ((Intersection a c).bind fun x => (Intersection c a).bind fun y => Equal x y) =
        some true ∧
      ((Union a c).bind fun x => (Union c a).bind fun y => Equal x y) = some true ∧
      ((SymmetricDifference a c).bind fun x =>
        (SymmetricDifference c a).bind fun y => Equal x y) = some true := by
  obtain ⟨-, la, -⟩ := hwa
  obtain ⟨-, lc, -⟩ := hwc
  rcases Nat.lt_trichotomy a.n c.n with hlt | heq | hgt
  · refine ⟨?_, ?_, ?_⟩
    · exact bind_equal_self _
        ((inter_eval a c la lc (le_of_lt hlt) hc).trans
          (inter_eval_rev c a la lc hlt hc).symm)
        (inter_eval a c la lc (le_of_lt hlt) hc)
    · exact bind_equal_self _
        ((union_eval a c la lc (le_of_lt hlt) hc).trans
          (union_eval_rev c a la lc hlt hc).symm)
        (union_eval a c la lc (le_of_lt hlt) hc)
    · exact bind_equal_self _
        ((symd_eval a c la lc (le_of_lt hlt) hc).trans
          (symd_eval_rev c a la lc hlt hc).symm)
        (symd_eval a c la lc (le_of_lt hlt) hc)
  · have hLL : a.b.length = c.b.length := by rw [la, lc, heq]
    have htC : c.b.take a.b.length = c.b := by
      rw [hLL]
      exact List.take_length c.b
    have htA : a.b.take c.b.length = a.b := by
      rw [← hLL]
      exact List.take_length a.b
    have hdC : c.b.drop a.b.length = [] := List.drop_eq_nil_of_le (by omega)
    have hdA : a.b.drop c.b.length = [] := List.drop_eq_nil_of_le (by omega)
    refine ⟨?_, ?_, ?_⟩
    · have h1 := inter_eval a c la lc (le_of_eq heq) hc
      rw [htC] at h1
      have h2 := inter_eval c a lc la (le_of_eq heq.symm) ha
      rw [htA] at h2
      have hv : (⟨c.n, List.zipWith (fun x y => x &&& y) c.b a.b⟩ : Bitset) =
          ⟨a.n, List.zipWith (fun x y => x &&& y) a.b c.b⟩ := by
        rw [heq, List.zipWith_comm_of_comm _ (fun x y => Nat.land_comm x y)]
      exact bind_equal_self _ (h1.trans ((h2.trans (congrArg some hv)).symm)) h1
    · have h1 := union_eval a c la lc (le_of_eq heq) hc
      rw [htC, hdC, List.append_nil] at h1
      have h2 := union_eval c a lc la (le_of_eq heq.symm) ha
      rw [htA, hdA, List.append_nil] at h2
      have hv : (⟨a.n, List.zipWith (fun x y => x ||| y) c.b a.b⟩ : Bitset) =
          ⟨c.n, List.zipWith (fun x y => x ||| y) a.b c.b⟩ := by
        rw [heq, List.zipWith_comm_of_comm _ (fun x y => Nat.lor_comm x y)]
      exact bind_equal_self _ (h1.trans ((h2.trans (congrArg some hv)).symm)) h1
    · have h1 := symd_eval a c la lc (le_of_eq heq) hc
      rw [htC, hdC, List.append_nil] at h1
      have h2 := symd_eval c a lc la (le_of_eq heq.symm) ha
      rw [htA, hdA, List.append_nil] at h2
      have hv : (⟨a.n, List.zipWith (fun x y => x ^^^ y) c.b a.b⟩ : Bitset) =
          ⟨c.n, List.zipWith (fun x y => x ^^^ y) a.b c.b⟩ := by
        rw [heq, List.zipWith_comm_of_comm _ (fun x y => Nat.xor_comm x y)]
      exact bind_equal_self _ (h1.trans ((h2.trans (congrArg some hv)).symm)) h1
  · refine ⟨?_, ?_, ?_⟩
    · exact bind_equal_self _
        ((inter_eval_rev a c lc la hgt ha).trans
          (inter_eval c a lc la (le_of_lt hgt) ha).symm)
        (inter_eval_rev a c lc la hgt ha)
    · exact bind_equal_self _
        ((union_eval_rev a c lc la hgt ha).trans
          (union_eval c a lc la (le_of_lt hgt) ha).symm)
        (union_eval_rev a c lc la hgt ha)
    · exact bind_equal_self _
        ((symd_eval_rev a c lc la hgt ha).trans
          (symd_eval c a lc la (le_of_lt hgt) ha).symm)
        (symd_eval_rev a c lc la hgt ha)

/-- Witness for the amended C5 at concrete bitsets of different lengths. -/
theorem c5_commutative_amended_witness :
    ((Intersection ⟨33, [5, 1]⟩ ⟨5, [9]⟩).bind fun x =>
        (Intersection ⟨5, [9]⟩ ⟨33, [5, 1]⟩).bind fun y => Equal x y) = some true ∧
      ((Union ⟨33, [5, 1]⟩ ⟨5, [9]⟩).bind fun x =>
        (Union ⟨5, [9]⟩ ⟨33, [5, 1]⟩).bind fun y => Equal x y) = some true ∧
      ((SymmetricDifference ⟨33, [5, 1]⟩ ⟨5, [9]⟩).bind fun x =>
        (SymmetricDifference ⟨5, [9]⟩ ⟨33, [5, 1]⟩).bind fun y => Equal x y) = some true :=
  c5_commutative_amended ⟨33, [5, 1]⟩ ⟨5, [9]⟩ (by unfold WF; decide) (by unfold WF; decide)
    (by decide) (by decide)

/-- Claim C10 (amended): for invariant-satisfying operands with lengths at
most `2^32 - 32`, after sorting by length the shorter operand's word count
never exceeds the longer operand's, and `Intersection`, `Union` and
`SymmetricDifference` stay in bounds (no panic). -/
theorem c10_sorted_bounds_amended (a c : Bitset) (hwa : WF a) (hwc : WF c)
    (ha : a.n ≤ safeLen) (hc : c.n ≤ safeLen) :
    wordCount (sortByLength a c).1 ≤ wordCount (sortByLength a c).2 ∧
      (Intersection a c).isSome = true ∧ (Union a c).isSome = true ∧
      (SymmetricDifference a c).isSome = true := by
  obtain ⟨-, la, -⟩ := hwa
  obtain ⟨-, lc, -⟩ := hwc
  rcases le_or_lt a.n c.n with hle | hgt
  · refine ⟨?_, ?_, ?_, ?_⟩
    · rw [sortByLength_le hle]
      exact wordsNeeded_mono hle hc
    · rw [inter_eval a c la lc hle hc]
      rfl
    · rw [union_eval a c la lc hle hc]
      rfl
    · rw [symd_eval a c la lc hle hc]
      rfl
  · refine ⟨?_, ?_, ?_, ?_⟩
    · rw [sortByLength_gt hgt]
      exact wordsNeeded_mono (le_of_lt hgt) ha
    · rw [inter_eval_rev a c lc la hgt ha]
      rfl
    · rw [union_eval_rev a c lc la hgt ha]
      rfl
    · rw [symd_eval_rev a c lc la hgt ha]
      rfl

/-- Witness for the amended C10 at concrete bitsets. -/
theorem c10_sorted_bounds_amended_witness :
    wordCount (sortByLength ⟨100, [0, 1, 2, 3]⟩ ⟨33, [5, 1]⟩).1 ≤
        wordCount (sortByLength ⟨100, [0, 1, 2, 3]⟩ ⟨33, [5, 1]⟩).2 ∧
      (Intersection ⟨100, [0, 1, 2, 3]⟩ ⟨33, [5, 1]⟩).isSome = true ∧
      (Union ⟨100, [0, 1, 2, 3]⟩ ⟨33, [5, 1]⟩).isSome = true ∧
      (SymmetricDifference ⟨100, [0, 1, 2, 3]⟩ ⟨33, [5, 1]⟩).isSome = true :=
  c10_sorted_bounds_amended ⟨100, [0, 1, 2, 3]⟩ ⟨33, [5, 1]⟩ (by unfold WF; decide)
    (by unfold WF; decide) (by decide) (by decide)

theorem swarS1_le (q1 v : Nat) : swarS1 q1 v ≤ v := Nat.sub_le _ _

theorem popCount_eq_swar_tail (x : Nat) (h : x < U32) :
    popCountUint32 x = pcTail (swar m1 m2 m4 x) := by
  have hU : U32 = 4294967296 := rfl
  have hm2 : m2 = 0x33333333 := rfl
  have hs_le : (x >>> 1) &&& m1 ≤ x :=
    le_trans Nat.and_le_left (by rw [Nat.shiftRight_eq_div_pow]; exact Nat.div_le_self _ _)
  have h1 : sub32 x ((x >>> 1) &&& m1) = swarS1 m1 x := by
    unfold sub32 swarS1 U32
    rw [hU] at h
    omega
  have hy1 : swarS1 m1 x ≤ x := swarS1_le _ _
  have ha1 : swarS1 m1 x &&& m2 ≤ 0x33333333 := by
    rw [← hm2]
    exact Nat.and_le_right
  have ha2 : (swarS1 m1 x >>> 2) &&& m2 ≤ 0x33333333 := by
    rw [← hm2]
    exact Nat.and_le_right
  have h2 : add32 (swarS1 m1 x &&& m2) ((swarS1 m1 x >>> 2) &&& m2) = swarS2 m1 m2 x := by
    unfold add32 swarS2 U32
    omega
  have hy2 : swarS2 m1 m2 x ≤ 0x66666666 := by
    unfold swarS2
    omega
  have hy2s : swarS2 m1 m2 x >>> 4 ≤ 0x66666666 := by
    rw [Nat.shiftRight_eq_div_pow]
    exact le_trans (Nat.div_le_self _ _) hy2
  have h3 : add32 (swarS2 m1 m2 x) (swarS2 m1 m2 x >>> 4) =
      swarS2 m1 m2 x + (swarS2 m1 m2 x >>> 4) := by
    unfold add32 U32
    omega
  show pcTail (add32 (add32 (sub32 x ((x >>> 1) &&& m1) &&& m2)
      ((sub32 x ((x >>> 1) &&& m1) >>> 2) &&& m2))
      (add32 (sub32 x ((x >>> 1) &&& m1) &&& m2)
        ((sub32 x ((x >>> 1) &&& m1) >>> 2) &&& m2) >>> 4) &&& m4) = _
  rw [h1, h2, h3]
  rfl

theorem land_split (k a b c d : Nat) (hb : b < 2 ^ k) (hd : d < 2 ^ k) :
    (a * 2 ^ k + b) &&& (c * 2 ^ k + d) = (a &&& c) * 2 ^ k + (b &&& d) := by
  have hbd : b &&& d < 2 ^ k := lt_of_le_of_lt Nat.and_le_left hb
  apply Nat.eq_of_testBit_eq
  intro j
  rw [Nat.mul_comm a, Nat.mul_comm c, Nat.mul_comm (a &&& c)]
  rw [Nat.testBit_and, Nat.testBit_mul_pow_two_add a hb j,
    Nat.testBit_mul_pow_two_add c hd j, Nat.testBit_mul_pow_two_add (a &&& c) hbd j,
    Nat.testBit_and, Nat.testBit_and]
  by_cases hj : j < k
  · simp [hj]
  · simp [hj]

theorem land_mod {q k : Nat} (hq : q < 2 ^ k) (x : Nat) : x &&& q = (x % 2 ^ k) &&& q := by
  apply Nat.eq_of_testBit_eq
  intro j
  rw [Nat.testBit_and, Nat.testBit_and, Nat.testBit_mod_two_pow]
  by_cases hj : j < k
  · simp [hj]
  · have hqf : q.testBit j = false :=
      Nat.testBit_lt_two_pow (lt_of_lt_of_le hq (Nat.pow_le_pow_right (by omega) (by omega)))
    simp [hj, hqf]

theorem pc8_correct :
    ∀ v < 256, swar 0x55 0x33 0x0f v = bitCnt 8 v ∧ swar 0x55 0x33 0x0f v ≤ 8 := by
  decide

theorem pcTail_bytes : ∀ p < 9, ∀ q < 9, ∀ r < 9, ∀ s < 9,
    pcTail ((p * 256 + q) * 65536 + (r * 256 + s)) = p + q + r + s := by
  decide



theorem land_splitN {M : Nat} (k : Nat) (hM : 2 ^ k = M) (a b c d : Nat)
    (hb : b < M) (hd : d < M) :
    (a * M + b) &&& (c * M + d) = (a &&& c) * M + (b &&& d) := by
  subst hM
  exact land_split k a b c d hb hd

theorem land_modN {q M : Nat} (k : Nat) (hM : 2 ^ k = M) (hq : q < M) (x : Nat) :
    x &&& q = (x % M) &&& q := by
  subst hM
  exact land_mod hq x

theorem mod16_eq_and (x : Nat) : x % 16 = x &&& 15 := by
  have h := Nat.and_pow_two_sub_one_eq_mod x 4
  norm_num at h
  exact h.symm

theorem swarS1_split16 (a v : Nat) (ha : a < 65536) (hv : v < 65536) :
    swarS1 m1 (a * 65536 + v) = swarS1 0x5555 a * 65536 + swarS1 0x5555 v := by
  unfold swarS1
  have hsh : (a * 65536 + v) >>> 1 = (a >>> 1) * 65536 + ((a % 2) * 32768 + v >>> 1) := by
    simp only [Nat.shiftRight_eq_div_pow, pow_one]
    omega
  have hlo : (a % 2) * 32768 + v >>> 1 < 65536 := by
    rw [Nat.shiftRight_eq_div_pow, pow_one]
    omega
  have hm1e : m1 = 0x5555 * 65536 + 0x5555 := by decide
  rw [hsh, hm1e, land_splitN 16 (by decide) _ _ _ _ hlo (by decide)]
  have hinner : ((a % 2) * 32768 + v >>> 1) &&& 0x5555 = (v >>> 1) &&& 0x5555 := by
    have h2 := land_splitN (M := 32768) 15 (by decide) (a % 2) (v >>> 1) 0 0x5555
      (by rw [Nat.shiftRight_eq_div_pow, pow_one]; omega) (by decide)
    simpa using h2
  rw [hinner]
  have hs_a : (a >>> 1) &&& 0x5555 ≤ a :=
    le_trans Nat.and_le_left (by rw [Nat.shiftRight_eq_div_pow, pow_one]; omega)
  have hs_v : (v >>> 1) &&& 0x5555 ≤ v :=
    le_trans Nat.and_le_left (by rw [Nat.shiftRight_eq_div_pow, pow_one]; omega)
  omega

theorem swarS2_split16 (a v : Nat) (ha : a < 65536) (hv : v < 65536) :
    swarS2 m1 m2 (a * 65536 + v) =
      swarS2 0x5555 0x3333 a * 65536 + swarS2 0x5555 0x3333 v := by
  unfold swarS2
  rw [swarS1_split16 a v ha hv]
  have hA1 : swarS1 0x5555 a < 65536 := lt_of_le_of_lt (swarS1_le _ _) ha
  have hV1 : swarS1 0x5555 v < 65536 := lt_of_le_of_lt (swarS1_le _ _) hv
  have hsh : (swarS1 0x5555 a * 65536 + swarS1 0x5555 v) >>> 2 =
      (swarS1 0x5555 a >>> 2) * 65536 +
        ((swarS1 0x5555 a % 4) * 16384 + swarS1 0x5555 v >>> 2) := by
    simp only [Nat.shiftRight_eq_div_pow]
    rw [show (2 : Nat) ^ 2 = 4 by decide]
    omega
  have hlo2 : (swarS1 0x5555 a % 4) * 16384 + swarS1 0x5555 v >>> 2 < 65536 := by
    rw [Nat.shiftRight_eq_div_pow, show (2 : Nat) ^ 2 = 4 by decide]
    omega
  have hm2e : m2 = 0x3333 * 65536 + 0x3333 := by decide
  rw [hm2e, hsh, land_splitN 16 (by decide) _ _ _ _ hV1 (by decide),
    land_splitN 16 (by decide) _ _ _ _ hlo2 (by decide)]
  have hinner : ((swarS1 0x5555 a % 4) * 16384 + swarS1 0x5555 v >>> 2) &&& 0x3333 =
      (swarS1 0x5555 v >>> 2) &&& 0x3333 := by
    have h2 := land_splitN (M := 16384) 14 (by decide) (swarS1 0x5555 a % 4)
      (swarS1 0x5555 v >>> 2) 0 0x3333
      (by rw [Nat.shiftRight_eq_div_pow, show (2 : Nat) ^ 2 = 4 by decide]; omega)
      (by decide)
    simpa using h2
  rw [hinner]
  omega

theorem swarS2_le_twice (q1 M2 v : Nat) : swarS2 q1 M2 v ≤ 2 * M2 := by
  unfold swarS2
  have h1 : swarS1 q1 v &&& M2 ≤ M2 := Nat.and_le_right
  have h2 : (swarS1 q1 v >>> 2) &&& M2 ≤ M2 := Nat.and_le_right
  omega

theorem swarS2_mod16 {M2 : Nat} (q1 v : Nat) (h : M2 &&& 15 = 3) :
    swarS2 q1 M2 v % 16 ≤ 6 := by
  unfold swarS2
  have hu : (swarS1 q1 v &&& M2) % 16 ≤ 3 := by
    rw [mod16_eq_and, Nat.and_assoc, h]
    exact Nat.and_le_right
  have hw : ((swarS1 q1 v >>> 2) &&& M2) % 16 ≤ 3 := by
    rw [mod16_eq_and, Nat.and_assoc, h]
    exact Nat.and_le_right
  rw [Nat.add_mod]
  omega

theorem swar_split16 (a v : Nat) (ha : a < 65536) (hv : v < 65536) :
    swar m1 m2 m4 (a * 65536 + v) =
      swar 0x5555 0x3333 0x0f0f a * 65536 + swar 0x5555 0x3333 0x0f0f v := by
  unfold swar
  rw [swarS2_split16 a v ha hv]
  have hA2 : swarS2 0x5555 0x3333 a ≤ 26214 := by
    have := swarS2_le_twice 0x5555 0x3333 a
    omega
  have hV2 : swarS2 0x5555 0x3333 v ≤ 26214 := by
    have := swarS2_le_twice 0x5555 0x3333 v
    omega
  have hA2m : swarS2 0x5555 0x3333 a % 16 ≤ 6 := swarS2_mod16 _ _ (by decide)
  have hsh : (swarS2 0x5555 0x3333 a * 65536 + swarS2 0x5555 0x3333 v) >>> 4 =
      (swarS2 0x5555 0x3333 a >>> 4) * 65536 +
        ((swarS2 0x5555 0x3333 a % 16) * 4096 + swarS2 0x5555 0x3333 v >>> 4) := by
    simp only [Nat.shiftRight_eq_div_pow]
    rw [show (2 : Nat) ^ 4 = 16 by decide]
    omega
  have hlo : swarS2 0x5555 0x3333 v +
      ((swarS2 0x5555 0x3333 a % 16) * 4096 + swarS2 0x5555 0x3333 v >>> 4) < 65536 := by
    rw [Nat.shiftRight_eq_div_pow, show (2 : Nat) ^ 4 = 16 by decide]
    omega
  have hm4e : m4 = 0x0f0f * 65536 + 0x0f0f := by decide
  rw [hsh,
    show swarS2 0x5555 0x3333 a * 65536 + swarS2 0x5555 0x3333 v +
        ((swarS2 0x5555 0x3333 a >>> 4) * 65536 +
          ((swarS2 0x5555 0x3333 a % 16) * 4096 + swarS2 0x5555 0x3333 v >>> 4)) =
      (swarS2 0x5555 0x3333 a + swarS2 0x5555 0x3333 a >>> 4) * 65536 +
        (swarS2 0x5555 0x3333 v +
          ((swarS2 0x5555 0x3333 a % 16) * 4096 + swarS2 0x5555 0x3333 v >>> 4)) from by omega,
    hm4e, land_splitN 16 (by decide) _ _ _ _ hlo (by decide)]
  have hkill : (swarS2 0x5555 0x3333 v +
      ((swarS2 0x5555 0x3333 a % 16) * 4096 + swarS2 0x5555 0x3333 v >>> 4)) &&& 0x0f0f =
      (swarS2 0x5555 0x3333 v + swarS2 0x5555 0x3333 v >>> 4) &&& 0x0f0f := by
    rw [land_modN (M := 4096) 12 (by decide) (by decide)
        (swarS2 0x5555 0x3333 v +
          ((swarS2 0x5555 0x3333 a % 16) * 4096 + swarS2 0x5555 0x3333 v >>> 4)),
      land_modN (M := 4096) 12 (by decide) (by decide)
        (swarS2 0x5555 0x3333 v + swarS2 0x5555 0x3333 v >>> 4)]
    congr 1
    omega
  rw [hkill]



theorem swarS1_split8 (a v : Nat) (ha : a < 256) (hv : v < 256) :
    swarS1 0x5555 (a * 256 + v) = swarS1 0x55 a * 256 + swarS1 0x55 v := by
  unfold swarS1
  have hsh : (a * 256 + v) >>> 1 = (a >>> 1) * 256 + ((a % 2) * 128 + v >>> 1) := by
    simp only [Nat.shiftRight_eq_div_pow, pow_one]
    omega
  have hlo : (a % 2) * 128 + v >>> 1 < 256 := by
    rw [Nat.shiftRight_eq_div_pow, pow_one]
    omega
  rw [hsh, show (0x5555 : Nat) = 0x55 * 256 + 0x55 from by decide,
    land_splitN (M := 256) 8 (by decide) _ _ _ _ hlo (by decide)]
  have hinner : ((a % 2) * 128 + v >>> 1) &&& 0x55 = (v >>> 1) &&& 0x55 := by
    have h2 := land_splitN (M := 128) 7 (by decide) (a % 2) (v >>> 1) 0 0x55
      (by rw [Nat.shiftRight_eq_div_pow, pow_one]; omega) (by decide)
    simpa using h2
  rw [hinner]
  have hs_a : (a >>> 1) &&& 0x55 ≤ a :=
    le_trans Nat.and_le_left (by rw [Nat.shiftRight_eq_div_pow, pow_one]; omega)
  have hs_v : (v >>> 1) &&& 0x55 ≤ v :=
    le_trans Nat.and_le_left (by rw [Nat.shiftRight_eq_div_pow, pow_one]; omega)
  omega

theorem swarS2_split8 (a v : Nat) (ha : a < 256) (hv : v < 256) :
    swarS2 0x5555 0x3333 (a * 256 + v) =
      swarS2 0x55 0x33 a * 256 + swarS2 0x55 0x33 v := by
  unfold swarS2
  rw [swarS1_split8 a v ha hv]
  have hA1 : swarS1 0x55 a < 256 := lt_of_le_of_lt (swarS1_le _ _) ha
  have hV1 : swarS1 0x55 v < 256 := lt_of_le_of_lt (swarS1_le _ _) hv
  have hsh : (swarS1 0x55 a * 256 + swarS1 0x55 v) >>> 2 =
      (swarS1 0x55 a >>> 2) * 256 + ((swarS1 0x55 a % 4) * 64 + swarS1 0x55 v >>> 2) := by
    simp only [Nat.shiftRight_eq_div_pow]
    rw [show (2 : Nat) ^ 2 = 4 by decide]
    omega
  have hlo2 : (swarS1 0x55 a % 4) * 64 + swarS1 0x55 v >>> 2 < 256 := by
    rw [Nat.shiftRight_eq_div_pow, show (2 : Nat) ^ 2 = 4 by decide]
    omega
  rw [show (0x3333 : Nat) = 0x33 * 256 + 0x33 from by decide, hsh,
    land_splitN (M := 256) 8 (by decide) _ _ _ _ hV1 (by decide),
    land_splitN (M := 256) 8 (by decide) _ _ _ _ hlo2 (by decide)]
  have hinner : ((swarS1 0x55 a % 4) * 64 + swarS1 0x55 v >>> 2) &&& 0x33 =
      (swarS1 0x55 v >>> 2) &&& 0x33 := by
    have h2 := land_splitN (M := 64) 6 (by decide) (swarS1 0x55 a % 4)
      (swarS1 0x55 v >>> 2) 0 0x33
      (by rw [Nat.shiftRight_eq_div_pow, show (2 : Nat) ^ 2 = 4 by decide]; omega)
      (by decide)
    simpa using h2
  rw [hinner]
  omega

theorem swar_split8 (a v : Nat) (ha : a < 256) (hv : v < 256) :
    swar 0x5555 0x3333 0x0f0f (a * 256 + v) =
      swar 0x55 0x33 0x0f a * 256 + swar 0x55 0x33 0x0f v := by
  unfold swar
  rw [swarS2_split8 a v ha hv]
  have hA2 : swarS2 0x55 0x33 a ≤ 102 := by
    have := swarS2_le_twice 0x55 0x33 a
    omega
  have hV2 : swarS2 0x55 0x33 v ≤ 102 := by
    have := swarS2_le_twice 0x55 0x33 v
    omega
  have hA2m : swarS2 0x55 0x33 a % 16 ≤ 6 := swarS2_mod16 _ _ (by decide)
  have hsh : (swarS2 0x55 0x33 a * 256 + swarS2 0x55 0x33 v) >>> 4 =
      (swarS2 0x55 0x33 a >>> 4) * 256 +
        ((swarS2 0x55 0x33 a % 16) * 16 + swarS2 0x55 0x33 v >>> 4) := by
    simp only [Nat.shiftRight_eq_div_pow]
    rw [show (2 : Nat) ^ 4 = 16 by decide]
    omega
  have hlo : swarS2 0x55 0x33 v +
      ((swarS2 0x55 0x33 a % 16) * 16 + swarS2 0x55 0x33 v >>> 4) < 256 := by
    rw [Nat.shiftRight_eq_div_pow, show (2 : Nat) ^ 4 = 16 by decide]
    omega
  rw [hsh,
    show swarS2 0x55 0x33 a * 256 + swarS2 0x55 0x33 v +
        ((swarS2 0x55 0x33 a >>> 4) * 256 +
          ((swarS2 0x55 0x33 a % 16) * 16 + swarS2 0x55 0x33 v >>> 4)) =
      (swarS2 0x55 0x33 a + swarS2 0x55 0x33 a >>> 4) * 256 +
        (swarS2 0x55 0x33 v +
          ((swarS2 0x55 0x33 a % 16) * 16 + swarS2 0x55 0x33 v >>> 4)) from by omega,
    show (0x0f0f : Nat) = 0x0f * 256 + 0x0f from by decide,
    land_splitN (M := 256) 8 (by decide) _ _ _ _ hlo (by decide)]
  have hkill : (swarS2 0x55 0x33 v +
      ((swarS2 0x55 0x33 a % 16) * 16 + swarS2 0x55 0x33 v >>> 4)) &&& 0x0f =
      (swarS2 0x55 0x33 v + swarS2 0x55 0x33 v >>> 4) &&& 0x0f := by
    rw [land_modN (M := 16) 4 (by decide) (by decide)
        (swarS2 0x55 0x33 v + ((swarS2 0x55 0x33 a % 16) * 16 + swarS2 0x55 0x33 v >>> 4)),
      land_modN (M := 16) 4 (by decide) (by decide)
        (swarS2 0x55 0x33 v + swarS2 0x55 0x33 v >>> 4)]
    congr 1
    omega
  rw [hkill]



theorem bitCnt_split (w1 w2 a v : Nat) (hv : v < 2 ^ w1) :
    bitCnt (w1 + w2) (a * 2 ^ w1 + v) = bitCnt w2 a + bitCnt w1 v := by
  unfold bitCnt
  rw [List.range_add, List.map_append, List.sum_append, List.map_map]
  have h1 : ((List.range w1).map fun j => if (a * 2 ^ w1 + v).testBit j then 1 else 0) =
      (List.range w1).map fun j => if v.testBit j then 1 else 0 := by
    apply List.map_congr_left
    intro j hj
    rw [List.mem_range] at hj
    rw [Nat.mul_comm a (2 ^ w1), Nat.testBit_mul_pow_two_add a hv j, if_pos hj]
  have h2 : ((List.range w2).map
        ((fun j => if (a * 2 ^ w1 + v).testBit j then 1 else 0) ∘ fun x => w1 + x)) =
      (List.range w2).map fun j => if a.testBit j then 1 else 0 := by
    apply List.map_congr_left
    intro j hj
    simp only [Function.comp_apply]
    have ht : (a * 2 ^ w1 + v).testBit (w1 + j) = a.testBit j := by
      rw [Nat.mul_comm a (2 ^ w1), Nat.testBit_mul_pow_two_add a hv (w1 + j),
        if_neg (show ¬ (w1 + j < w1) by omega)]
      congr 1
      omega
    rw [ht]
  rw [h1, h2]
  omega

theorem popCount_correct (x : Nat) (h : x < U32) : popCountUint32 x = bitCnt 32 x := by
  have hU : U32 = 4294967296 := rfl
  have hhi : x / 65536 < 65536 := by omega
  have hlo : x % 65536 < 65536 := Nat.mod_lt _ (by omega)
  have hx : x = (x / 65536) * 65536 + x % 65536 := by omega
  have haH : x / 65536 / 256 < 256 := by omega
  have haL : x / 65536 % 256 < 256 := Nat.mod_lt _ (by omega)
  have hae : x / 65536 = (x / 65536 / 256) * 256 + x / 65536 % 256 := by omega
  have hvH : x % 65536 / 256 < 256 := by omega
  have hvL : x % 65536 % 256 < 256 := Nat.mod_lt _ (by omega)
  have hve : x % 65536 = (x % 65536 / 256) * 256 + x % 65536 % 256 := by omega
  obtain ⟨hPe, hPle⟩ := pc8_correct (x / 65536 / 256) haH
  obtain ⟨hQe, hQle⟩ := pc8_correct (x / 65536 % 256) haL
  obtain ⟨hRe, hRle⟩ := pc8_correct (x % 65536 / 256) hvH
  obtain ⟨hSe, hSle⟩ := pc8_correct (x % 65536 % 256) hvL
  rw [popCount_eq_swar_tail x h]
  have hsplit : swar m1 m2 m4 x =
      (swar 0x55 0x33 0x0f (x / 65536 / 256) * 256 +
        swar 0x55 0x33 0x0f (x / 65536 % 256)) * 65536 +
      (swar 0x55 0x33 0x0f (x % 65536 / 256) * 256 +
        swar 0x55 0x33 0x0f (x % 65536 % 256)) := by
    conv_lhs => rw [hx]
    rw [swar_split16 _ _ hhi hlo]
    conv_lhs => rw [hae, hve]
    rw [swar_split8 _ _ haH haL, swar_split8 _ _ hvH hvL]
  rw [hsplit, pcTail_bytes _ (by omega) _ (by omega) _ (by omega) _ (by omega)]
  have hb32 : bitCnt 32 x = bitCnt 16 (x / 65536) + bitCnt 16 (x % 65536) := by
    conv_lhs => rw [hx]
    have hb := bitCnt_split 16 16 (x / 65536) (x % 65536)
      (by rw [show (2 : Nat) ^ 16 = 65536 from by decide]; omega)
    rw [show (2 : Nat) ^ 16 = 65536 from by decide] at hb
    exact hb
  have hb16a : bitCnt 16 (x / 65536) =
      bitCnt 8 (x / 65536 / 256) + bitCnt 8 (x / 65536 % 256) := by
    conv_lhs => rw [hae]
    have hb := bitCnt_split 8 8 (x / 65536 / 256) (x / 65536 % 256)
      (by rw [show (2 : Nat) ^ 8 = 256 from by decide]; omega)
    rw [show (2 : Nat) ^ 8 = 256 from by decide] at hb
    exact hb
  have hb16v : bitCnt 16 (x % 65536) =
      bitCnt 8 (x % 65536 / 256) + bitCnt 8 (x % 65536 % 256) := by
    conv_lhs => rw [hve]
    have hb := bitCnt_split 8 8 (x % 65536 / 256) (x % 65536 % 256)
      (by rw [show (2 : Nat) ^ 8 = 256 from by decide]; omega)
    rw [show (2 : Nat) ^ 8 = 256 from by decide] at hb
    exact hb
  rw [hb32, hb16a, hb16v, ← hPe, ← hQe, ← hRe, ← hSe]
  omega



theorem sum_map_le_length (l : List Nat) (f : Nat → Nat) (h : ∀ j ∈ l, f j ≤ 1) :
    (l.map f).sum ≤ l.length := by
  induction l with
  | nil => simp
  | cons a l ih =>
    simp only [List.map_cons, List.sum_cons, List.length_cons]
    have h1 := h a (by simp)
    have h2 := ih (fun j hj => h j (by simp [hj]))
    omega

theorem bitCnt_le (w v : Nat) : bitCnt w v ≤ w := by
  unfold bitCnt
  calc ((List.range w).map (fun j => if v.testBit j then 1 else 0)).sum
      ≤ (List.range w).length :=
        sum_map_le_length _ _ (fun j _ => by split <;> omega)
    _ = w := List.length_range w

theorem countFold_eq : ∀ (ws : List Nat) (acc : Nat), (∀ w ∈ ws, w < U32) →
    acc + 32 * ws.length < U32 →
    ws.foldl (fun s w => add32 s (popCountUint32 w)) acc = acc + (ws.map (bitCnt 32)).sum
  | [], acc, _, _ => by simp
  | w :: ws, acc, hw, hb => by
    simp only [List.foldl_cons, List.map_cons, List.sum_cons]
    have hpc : popCountUint32 w = bitCnt 32 w := popCount_correct w (hw w (by simp))
    have hle : bitCnt 32 w ≤ 32 := bitCnt_le 32 w
    have hstep : add32 acc (popCountUint32 w) = acc + bitCnt 32 w := by
      unfold add32 U32 at *
      rw [hpc]
      simp only [List.length_cons] at hb
      omega
    rw [hstep, countFold_eq ws (acc + bitCnt 32 w) (fun u hu => hw u (by simp [hu]))
      (by simp only [List.length_cons] at hb; omega)]
    omega

theorem Count_eq (nn : Nat) (ws : List Nat) (hw : ∀ w ∈ ws, w < U32)
    (hl : 32 * ws.length < U32) : Count ⟨nn, ws⟩ = (ws.map (bitCnt 32)).sum := by
  unfold Count
  simp only
  rw [countFold_eq ws 0 hw (by omega)]
  omega

theorem sum_map_add_map {l : List Nat} {f g k : Nat → Nat}
    (hp : ∀ j ∈ l, f j + g j = k j) : (l.map f).sum + (l.map g).sum = (l.map k).sum := by
  induction l with
  | nil => simp
  | cons a l ih =>
    simp only [List.map_cons, List.sum_cons]
    have h1 := hp a (by simp)
    have h2 := ih (fun j hj => hp j (by simp [hj]))
    omega

theorem bitCnt_andNot_and (x y : Nat) :
    bitCnt 32 (andNot x y) + bitCnt 32 (x &&& y) = bitCnt 32 x := by
  unfold bitCnt andNot
  apply sum_map_add_map
  intro j hj
  rw [List.mem_range] at hj
  have hall : allBits.testBit j = true := by
    rw [show allBits = 2 ^ 32 - 1 from by decide, Nat.testBit_two_pow_sub_one]
    simp [hj]
  rw [Nat.testBit_and, Nat.testBit_and, Nat.testBit_xor, hall]
  cases x.testBit j <;> cases y.testBit j <;> rfl

theorem sum_partition : ∀ (as bs : List Nat),
    ((List.zipWith andNot as bs).map (bitCnt 32)).sum +
      ((List.zipWith (fun x y => x &&& y) as bs).map (bitCnt 32)).sum +
      ((as.drop bs.length).map (bitCnt 32)).sum = (as.map (bitCnt 32)).sum
  | as, [] => by simp
  | [], b :: bs => by simp
  | a :: as, b :: bs => by
    simp only [List.zipWith_cons_cons, List.map_cons, List.sum_cons, List.length_cons,
      List.drop_succ_cons]
    have hw := bitCnt_andNot_and a b
    have ih := sum_partition as bs
    omega

theorem diff_eval (a c : Bitset) (hla : a.b.length = wordsNeeded a.n)
    (hlc : c.b.length = wordsNeeded c.n) :
    Difference a c = some ⟨a.n,
      List.zipWith andNot (a.b.take (min a.b.length (wordsNeeded c.n)))
        (c.b.take (min a.b.length (wordsNeeded c.n))) ++
      a.b.drop (min a.b.length (wordsNeeded c.n))⟩ := by
  unfold Difference wordCount
  rw [clone_eq a hla,
    opWords_eval _ _ _ _ _ (Nat.min_le_left _ _) (by rw [hlc]; exact Nat.min_le_right _ _)
      (Nat.min_le_left _ _)]
  rfl

theorem zip_words_lt {f : Nat → Nat → Nat} (hf : ∀ x y, f x y ≤ x) :
    ∀ (as bs : List Nat), (∀ x ∈ as, x < U32) → ∀ w ∈ List.zipWith f as bs, w < U32
  | [], _, _ => by simp
  | _ :: _, [], _ => by simp
  | a :: as, b :: bs, h => by
    intro w hw
    simp only [List.zipWith_cons_cons, List.mem_cons] at hw
    rcases hw with rfl | hw
    · exact lt_of_le_of_lt (hf a b) (h a (by simp))
    · exact zip_words_lt hf as bs (fun x hx => h x (by simp [hx])) w hw



/-- Claim C7 (amended): for all invariant-satisfying bitsets with lengths at
most `2^32 - 32`, `a.difference(b).count() + a.intersection(b).count() =
a.count()` (for overflow-zone lengths the intersection panics, see the
counterexample). -/
theorem c7_count_partition_amended (a c : Bitset) (hwa : WF a) (hwc : WF c)
    (ha : a.n ≤ safeLen) (hc : c.n ≤ safeLen) :
    ∃ d t, Difference a c = some d ∧ Intersection a c = some t ∧
      Count d + Count t = Count a := by
  obtain ⟨haU, hla, hwra⟩ := hwa
  obtain ⟨hcU, hlc, hwrc⟩ := hwc
  have hwna : wordsNeeded a.n ≤ 134217727 := wordsNeeded_le a.n
  have hwnc : wordsNeeded c.n ≤ 134217727 := wordsNeeded_le c.n
  have hCa : Count a = (a.b.map (bitCnt 32)).sum := by
    have h := Count_eq a.n a.b hwra (by unfold U32; omega)
    exact h
  rcases le_or_lt a.n c.n with hle | hgt
  · have hmono : wordsNeeded a.n ≤ wordsNeeded c.n := wordsNeeded_mono hle hc
    have hlen_ac : a.b.length ≤ c.b.length := by
      rw [hla, hlc]
      exact hmono
    have hk : min a.b.length (wordsNeeded c.n) = a.b.length :=
      Nat.min_eq_left (by rw [hla]; exact hmono)
    have hd := diff_eval a c hla hlc
    rw [hk, List.take_length, List.drop_length, List.append_nil] at hd
    have ht := inter_eval a c hla hlc hle hc
    refine ⟨_, _, hd, ht, ?_⟩
    have hlen_take : (c.b.take a.b.length).length = a.b.length := by
      rw [List.length_take]
      exact Nat.min_eq_left hlen_ac
    have hCd : Count ⟨a.n, List.zipWith andNot a.b (c.b.take a.b.length)⟩ =
        ((List.zipWith andNot a.b (c.b.take a.b.length)).map (bitCnt 32)).sum := by
      refine Count_eq _ _ (zip_words_lt (fun x y => Nat.and_le_left) _ _ hwra) ?_
      rw [List.length_zipWith, hlen_take, Nat.min_self]
      unfold U32
      omega
    have hCt : Count ⟨a.n, List.zipWith (fun x y => x &&& y) a.b (c.b.take a.b.length)⟩ =
        ((List.zipWith (fun x y => x &&& y) a.b (c.b.take a.b.length)).map
          (bitCnt 32)).sum := by
      refine Count_eq _ _ (zip_words_lt (fun x y => Nat.and_le_left) _ _ hwra) ?_
      rw [List.length_zipWith, hlen_take, Nat.min_self]
      unfold U32
      omega
    rw [hCd, hCt, hCa]
    have hsp := sum_partition a.b (c.b.take a.b.length)
    rw [hlen_take, List.drop_length] at hsp
    simp only [List.map_nil, List.sum_nil] at hsp
    omega
  · have hmono : wordsNeeded c.n ≤ wordsNeeded a.n := wordsNeeded_mono (le_of_lt hgt) ha
    have hlen_ca : c.b.length ≤ a.b.length := by
      rw [hla, hlc]
      exact hmono
    have hk : min a.b.length (wordsNeeded c.n) = c.b.length := by
      rw [hla, ← hlc]
      exact Nat.min_eq_right (by rw [← hla]; exact hlen_ca)
    have hd := diff_eval a c hla hlc
    rw [hk, List.take_length] at hd
    have ht := inter_eval_rev a c hlc hla hgt ha
    refine ⟨_, _, hd, ht, ?_⟩
    have hlen_take : (a.b.take c.b.length).length = c.b.length := by
      rw [List.length_take]
      exact Nat.min_eq_left hlen_ca
    have htake_words : ∀ x ∈ a.b.take c.b.length, x < U32 :=
      fun x hx => hwra x (List.take_subset _ _ hx)
    have hdrop_words : ∀ x ∈ a.b.drop c.b.length, x < U32 :=
      fun x hx => hwra x (List.drop_subset _ _ hx)
    have hCd : Count ⟨a.n, List.zipWith andNot (a.b.take c.b.length) c.b ++
          a.b.drop c.b.length⟩ =
        ((List.zipWith andNot (a.b.take c.b.length) c.b).map (bitCnt 32)).sum +
          ((a.b.drop c.b.length).map (bitCnt 32)).sum := by
      rw [Count_eq _ _ (by
          intro w hw
          rcases List.mem_append.mp hw with h1 | h2
          · exact zip_words_lt (fun x y => Nat.and_le_left) _ _ htake_words w h1
          · exact hdrop_words w h2)
        (by
          rw [List.length_append, List.length_zipWith, hlen_take, Nat.min_self,
            List.length_drop]
          unfold U32
          omega)]
      rw [List.map_append, List.sum_append]
    have hCt : Count ⟨c.n, List.zipWith (fun x y => x &&& y) c.b (a.b.take c.b.length)⟩ =
        ((List.zipWith (fun x y => x &&& y) (a.b.take c.b.length) c.b).map
          (bitCnt 32)).sum := by
      rw [List.zipWith_comm_of_comm _ (fun x y => Nat.land_comm x y)]
      refine Count_eq _ _ (zip_words_lt (fun x y => Nat.and_le_left) _ _ htake_words) ?_
      rw [List.length_zipWith, hlen_take, Nat.min_self]
      unfold U32
      omega
    rw [hCd, hCt, hCa]
    have hsp := sum_partition (a.b.take c.b.length) c.b
    rw [(show (a.b.take c.b.length).drop c.b.length = [] from
      List.drop_eq_nil_of_le (by rw [hlen_take]))] at hsp
    simp only [List.map_nil, List.sum_nil] at hsp
    have hsplit_a : (a.b.map (bitCnt 32)).sum =
        ((a.b.take c.b.length).map (bitCnt 32)).sum +
          ((a.b.drop c.b.length).map (bitCnt 32)).sum := by
      conv_lhs => rw [← List.take_append_drop c.b.length a.b]
      rw [List.map_append, List.sum_append]
    omega

/-- Witness for the amended C7 at concrete bitsets with set bits. -/
theorem c7_count_partition_amended_witness :
    ∃ d t, Difference ⟨33, [5, 1]⟩ ⟨5, [9]⟩ = some d ∧
      Intersection ⟨33, [5, 1]⟩ ⟨5, [9]⟩ = some t ∧
      Count d + Count t = Count ⟨33, [5, 1]⟩ :=
  c7_count_partition_amended ⟨33, [5, 1]⟩ ⟨5, [9]⟩ (by unfold WF; decide)
    (by unfold WF; decide) (by decide) (by decide)

end GoBitset
